import Mathlib

/-!
Verification of the project-brain retrieval engine (`src/rag_pipeline.py`).

The Python source is shallowly embedded:
* file-system paths are lists of path components (`Path`), assumed canonical
  (so `Path.resolve()` is the identity);
* file contents are the list of lines produced by `str.splitlines()`; the
  content hash (`hashlib.md5` over the raw bytes) is idealized as the content
  itself, so "stored hash equals current hash" means "content unchanged";
* Python `float` arithmetic in `_cosine_similarity` is idealized as exact
  real arithmetic (`ℝ`), with `** 0.5` read as `Real.sqrt` (the argument is a
  sum of squares, hence nonnegative); embeddings stored in `chunks.json` are
  JSON numbers, modelled as rationals (`ℚ`);
* the remote Ollama endpoints are opaque collaborators: an embedding call is a
  value of type `Option (List ℚ)` (`none` = the call raised), a generation
  call is `Except String String` (`.error e` = the call raised with message
  `e`);
* a Python function that can raise an uncaught exception is modelled with an
  `Option`/dedicated constructor for the raising outcome.
-/

/-- An absolute or relative filesystem path, as its list of components. -/
abbrev FilePath' := List String

/-- A chunk record as built by `_chunk_file` (and later decorated with an
`embedding` key by `index`).  `file` is the relative path stored under the
`"file"` key, kept as components. -/
structure Chunk where
  text : String
  file : FilePath'
  start_line : Nat
  end_line : Nat
  embedding : Option (List ℚ) := none
deriving DecidableEq, Repr

/-- The start offsets generated by Python's `range(0, stop, step)` for
`step ≥ 1`: `0, step, 2*step, …`, all `< stop`. -/
def windowStarts (stop step : Nat) : List Nat :=
  (List.range ((stop + step - 1) / step)).map (· * step)

/-- The window `lines[i : i + chunkSize]` of `_chunk_file`. -/
def chunkWindow (lines : List String) (chunkSize i : Nat) : List String :=
  (lines.drop i).take chunkSize

/-- Python's `str.strip()`: remove leading and trailing whitespace characters.
(Python's whitespace set also has `\v`, `\f` and Unicode spaces; the repository
only ever strips ASCII space/tab/CR/LF, which `Char.isWhitespace` covers.) -/
def strip (s : String) : String :=
  ⟨((s.data.dropWhile Char.isWhitespace).reverse.dropWhile Char.isWhitespace).reverse⟩

/-- The window text `"\n".join(chunk_lines).strip()` of `_chunk_file`. -/
def chunkText (lines : List String) (chunkSize i : Nat) : String :=
  strip (String.intercalate "\n" (chunkWindow lines chunkSize i))

/-- The chunk-building loop of `_chunk_file` (lines 84–100 of
`rag_pipeline.py`), given the already-computed relative path `rel`.
Windows start at `range(0, max(1, len(lines) - overlap), step)` with
`step = chunk_size - overlap`; windows whose stripped text is empty are
dropped.  (Python raises `ValueError` for `step ≤ 0`; all theorems below
assume `overlap < chunk_size`, under which `step ≥ 1`.) -/
def chunkLines (rel : FilePath') (lines : List String) (chunkSize overlap : Nat) :
    List Chunk :=
  (windowStarts (max 1 (lines.length - overlap)) (chunkSize - overlap)).filterMap
    fun i =>
      if chunkText lines chunkSize i = "" then none
      else some { text := chunkText lines chunkSize i
                  file := rel
                  start_line := i + 1
                  end_line := i + (chunkWindow lines chunkSize i).length }

/-- `_chunk_file`: computes `path.relative_to(self.project_path)` — which
raises `ValueError` (modelled as `none`) unless the configured project path is
a prefix of `path` — and then chunks the file's lines. -/
def chunkFile (projectPath path : FilePath') (lines : List String)
    (chunkSize overlap : Nat) : Option (List Chunk) :=
  if projectPath <+: path then
    some (chunkLines (path.drop projectPath.length) lines chunkSize overlap)
  else none

/-! ## Cosine similarity (`_cosine_similarity`, lines 112–118) -/

/-- `sum(x * x for x in a)`. -/
def sumSq (a : List ℝ) : ℝ := (a.map fun x => x * x).sum

/-- `sum(x * x for x in a) ** 0.5` (the argument is nonnegative, so Python's
`** 0.5` is the square root). -/
noncomputable def normOf (a : List ℝ) : ℝ := Real.sqrt (sumSq a)

/-- `sum(x * y for x, y in zip(a, b))`: the dot product over the common
prefix of the two vectors (`zip` truncates to the shorter one). -/
def dotL (a b : List ℝ) : ℝ := ((a.zip b).map fun p => p.1 * p.2).sum

/-- `_cosine_similarity`: returns `0.0` when either norm is zero, otherwise
`dot / (norm_a * norm_b)`. -/
noncomputable def cosineSimilarity (a b : List ℝ) : ℝ :=
  if normOf a = 0 ∨ normOf b = 0 then 0
  else dotL a b / (normOf a * normOf b)

/-! ## Persistent state and `index()` (lines 120–184)

`self._index` is a Python `dict` keyed by `str(file)`: an insertion-ordered
association list with unique keys.  `self._chunks` is the chunk list. -/

/-- The in-memory/persisted state: the path→hash mapping (`index.json`) and
the chunk collection (`chunks.json`).  The md5 hash of a file is idealized as
its content. -/
structure PipelineState where
  hashes : List (FilePath' × List String)
  chunks : List Chunk
deriving DecidableEq, Repr

/-- `dict.get`: the value stored at the first (unique) matching key. -/
def lookupIdx : List (FilePath' × List String) → FilePath' → Option (List String)
  | [], _ => none
  | kv :: rest, k => if kv.1 = k then some kv.2 else lookupIdx rest k

/-- `dict[k] = v`: overwrite in place if the key is present, else append. -/
def setIdx : List (FilePath' × List String) → FilePath' → List String →
    List (FilePath' × List String)
  | [], k, v => [(k, v)]
  | kv :: rest, k, v =>
      if kv.1 = k then (k, v) :: rest else kv :: setIdx rest k v

/-- The loop state of `index()`'s per-file loop (lines 139–168). -/
structure LoopAcc where
  hashes : List (FilePath' × List String)
  newChunks : List Chunk
  indexed : Nat
  skipped : Nat
deriving DecidableEq, Repr

/-- One iteration of the `for file in files` loop of `index()` (lines
145–168).  `pruned` is `self._chunks` after the prune step (it is only read,
never written, during the loop).  A file is a pair (absolute path, content
lines); its hash is its content (see the md5 idealization above).

The skip branch (`not force and self._index.get(str(file)) == file_hash`)
keeps the file's existing chunks, matching on `str(file.relative_to(root))` —
`relative_to` raises (modelled `none`) unless `root` is a prefix.  The
re-index branch chunks via `_chunk_file` (which relativizes against the
*configured* project path `projectPath` and can itself raise), embeds each
chunk — a failed embedding (`emb _ = none`) drops that chunk with a warning —
and records the file's hash. -/
def processFile (projectPath root : FilePath') (emb : String → Option (List ℚ))
    (force : Bool) (chunkSize overlap : Nat) (pruned : List Chunk)
    (acc : LoopAcc) (f : FilePath' × List String) : Option LoopAcc :=
  if force = false ∧ lookupIdx acc.hashes f.1 = some f.2 then
    if root <+: f.1 then
      some { acc with
             skipped := acc.skipped + 1
             newChunks := acc.newChunks ++
               pruned.filter fun c => decide (c.file = f.1.drop root.length) }
    else none
  else
    match chunkFile projectPath f.1 f.2 chunkSize overlap with
    | none => none
    | some cs =>
        some { hashes := setIdx acc.hashes f.1 f.2
               newChunks := acc.newChunks ++
                 cs.filterMap fun c =>
                   (emb c.text).map fun e => { c with embedding := some e }
               indexed := acc.indexed + 1
               skipped := acc.skipped }

/-- The value returned by `index()`: either the "Path does not exist" error
string, or the "Indexing complete" message carrying the counts of new/updated
files, unchanged (skipped) files, and total stored chunks. -/
inductive IndexOutcome where
  | pathMissing (root : FilePath')
  | done (indexed skipped totalChunks : Nat)
deriving DecidableEq, Repr

/-- The observable effect of one `index()` call: its return value, the
resulting in-memory state, whether `index.json`/`chunks.json` were written,
and the summary text written to `summary.json` (if any). -/
structure IndexRun where
  result : IndexOutcome
  state : PipelineState
  wroteStores : Bool
  summaryWritten : Option String
deriving DecidableEq, Repr

/-- `index()` (lines 120–184) plus the summary step it triggers (lines
174–176 and `_generate_summary`, lines 271–313).

* `rootExists` models `root.exists()`; when false, `index` returns the error
  message immediately, with no state change and no file writes.
* `files` is the result of `_collect_files(root)` (paths with contents, in
  scan order); `current_files` is its set of (resolved = canonical) paths.
* Prune: hash entries whose key is no longer present, and chunks for which
  `(root / c["file"]).resolve()` is no longer present, are dropped.
* The per-file loop is `processFile`; an uncaught exception anywhere makes
  the whole call raise (`none`).
* After the loop both stores are saved, and — only if at least one file was
  (re)indexed — `_generate_summary` runs: its `try` block sends the prompt
  (outcome `gen`), and on any exception stores the
  `"Could not generate summary: …"` placeholder instead; either way the
  summary file is written. -/
def runIndex (projectPath root : FilePath') (rootExists : Bool)
    (files : List (FilePath' × List String)) (emb : String → Option (List ℚ))
    (gen : Except String String) (force : Bool) (chunkSize overlap : Nat)
    (st : PipelineState) : Option IndexRun :=
  if rootExists then
    let current := files.map (·.1)
    let prunedHashes := st.hashes.filter fun kv => decide (kv.1 ∈ current)
    let prunedChunks := st.chunks.filter fun c => decide (root ++ c.file ∈ current)
    (files.foldlM (processFile projectPath root emb force chunkSize overlap
        prunedChunks) ⟨prunedHashes, [], 0, 0⟩).map fun acc =>
      { result := .done acc.indexed acc.skipped acc.newChunks.length
        state := { hashes := acc.hashes, chunks := acc.newChunks }
        wroteStores := true
        summaryWritten :=
          if 0 < acc.indexed then
            some (match gen with
                  | .ok s => s
                  | .error e => "Could not generate summary: " ++ e)
          else none }
  else
    some { result := .pathMissing root, state := st
           wroteStores := false, summaryWritten := none }

/-! ## `search()` (lines 186–211) and `ask()` (lines 213–262)

Both check `if not self._chunks` first and return the
`"No index found. Run index_project first."` message (constructor
`.noIndex`).  The single query-embedding call `self._get_embedding(query)` is
*not* wrapped in `try`, so a failing call raises out of the method
(constructor `.raised`).  Chunks without an `"embedding"` key are skipped;
the rest are scored with `_cosine_similarity`, sorted by score descending
(Python's stable `list.sort(..., reverse=True)`), and the top `n` returned. -/

open Classical in
/-- Stable descending sort by score, as `scored.sort(key=lambda x: x[0],
reverse=True)`. -/
noncomputable def sortByScoreDesc (l : List (ℝ × Chunk)) : List (ℝ × Chunk) :=
  l.mergeSort fun x y => decide (y.1 ≤ x.1)

/-- Outcome of one `search()` call. -/
inductive SearchOutcome where
  | noIndex
  | raised (e : String)
  | results (top : List (ℝ × Chunk))

/-- `search(query, n)`, with the embedding call's outcome `embQ` passed in
(`.error e` = the remote call raised `e`). -/
noncomputable def search (chunks : List Chunk)
    (embQ : Except String (List ℚ)) (n : Nat) : SearchOutcome :=
  if chunks.isEmpty then .noIndex
  else
    match embQ with
    | .error e => .raised e
    | .ok q =>
        let scored := (chunks.filter fun c => c.embedding.isSome).map fun c =>
          (cosineSimilarity (q.map fun x => (x : ℝ))
            ((c.embedding.getD []).map fun x => (x : ℝ)), c)
        .results ((sortByScoreDesc scored).take n)

/-- Outcome of one `ask()` call. -/
inductive AskOutcome where
  | noIndex
  | raised (e : String)
  | answer (s : String)

/-- `ask(question)`: empty-index check, then the query embedding (uncaught on
failure), then retrieval and a generation call whose failures are also
uncaught; on success the model's raw response text is returned. -/
noncomputable def ask (chunks : List Chunk) (embQ : Except String (List ℚ))
    (gen : Except String String) : AskOutcome :=
  if chunks.isEmpty then .noIndex
  else
    match embQ with
    | .error e => .raised e
    | .ok _ =>
        match gen with
        | .error e => .raised e
        | .ok s => .answer s

/-- A chunk with a stored embedding, for concrete instantiations. -/
def demoChunk : Chunk :=
  { text := "x", file := ["a.py"], start_line := 1, end_line := 1
    embedding := some [1] }

/-- The one-file project used by concrete instantiations. -/
def demoFiles : List (FilePath' × List String) := [(["p", "a.py"], ["x"])]

/-- An embedding service that always answers `[1]`. -/
def embOne : String → Option (List ℚ) := fun _ => some [1]

/-- The `IndexRun` produced by indexing `demoFiles` from the empty state when
summary generation raises `"boom"`. -/
def runC8 : IndexRun :=
  { result := .done 1 0 1
    state := { hashes := [(["p", "a.py"], ["x"])]
               chunks := [⟨"x", ["a.py"], 1, 1, some [1]⟩] }
    wroteStores := true
    summaryWritten := some ("Could not generate summary: " ++ "boom") }

/-! # Helper lemmas about the cosine similarity -/

lemma sumSq_nonneg (a : List ℝ) : 0 ≤ sumSq a := by
  refine List.sum_nonneg fun x hx => ?_
  obtain ⟨y, -, rfl⟩ := List.mem_map.mp hx
  exact mul_self_nonneg y

lemma dotL_cons (x y : ℝ) (xs ys : List ℝ) :
    dotL (x :: xs) (y :: ys) = x * y + dotL xs ys := by
  simp [dotL]

lemma sumSq_cons (x : ℝ) (xs : List ℝ) : sumSq (x :: xs) = x * x + sumSq xs := by
  simp [sumSq]

lemma normOf_nonneg (a : List ℝ) : 0 ≤ normOf a := Real.sqrt_nonneg _

lemma normOf_eq_zero_iff (a : List ℝ) : normOf a = 0 ↔ sumSq a = 0 := by
  rw [normOf]
  exact Real.sqrt_eq_zero (sumSq_nonneg a)

lemma normOf_mul_self (a : List ℝ) : normOf a * normOf a = sumSq a :=
  Real.mul_self_sqrt (sumSq_nonneg a)

lemma dotL_self (a : List ℝ) : dotL a a = sumSq a := by
  induction a with
  | nil => simp [dotL, sumSq]
  | cons x xs ih => rw [dotL_cons, sumSq_cons, ih]

lemma sumSq_map_neg (a : List ℝ) : sumSq (a.map fun x => -x) = sumSq a := by
  induction a with
  | nil => simp [sumSq]
  | cons x xs ih => simp only [List.map_cons, sumSq_cons, ih, neg_mul_neg]

lemma dotL_neg_right (a : List ℝ) : dotL a (a.map fun x => -x) = -sumSq a := by
  induction a with
  | nil => simp [dotL, sumSq]
  | cons x xs ih =>
    simp only [List.map_cons, dotL_cons, sumSq_cons, ih, mul_neg]
    ring

/-- Cauchy–Schwarz for the truncating list dot product: the dot product runs
over the common prefix while each sum of squares runs over the whole list. -/
lemma dotL_sq_le (a b : List ℝ) : dotL a b ^ 2 ≤ sumSq a * sumSq b := by
  induction a generalizing b with
  | nil => simp [dotL, sumSq]
  | cons x xs ih =>
    cases b with
    | nil => simp [dotL, sumSq]
    | cons y ys =>
      have hA := sumSq_nonneg xs
      have hB := sumSq_nonneg ys
      have hS := ih ys
      rw [dotL_cons, sumSq_cons, sumSq_cons]
      rcases hA.eq_or_lt with hA0 | hApos
      · have hS2 : dotL xs ys ^ 2 = 0 :=
          le_antisymm (by nlinarith) (sq_nonneg _)
        have hS0 : dotL xs ys = 0 :=
          (pow_eq_zero_iff (two_ne_zero)).mp hS2
        rw [hS0, ← hA0]
        nlinarith [mul_nonneg (mul_self_nonneg x) hB, sq_nonneg (x * y)]
      · nlinarith [sq_nonneg (x * dotL xs ys - y * sumSq xs),
          mul_nonneg (add_nonneg (mul_self_nonneg x) hA) (sub_nonneg.mpr hS),
          hApos]

lemma zip_eq_zip_take (a b : List ℝ) :
    a.zip b = (a.take b.length).zip (b.take a.length) := by
  induction a generalizing b with
  | nil => simp
  | cons x xs ih =>
    cases b with
    | nil => simp
    | cons y ys => simpa using ih ys

/-! # Helper lemmas about the index state machine -/

lemma lookupIdx_setIdx_self (idx : List (FilePath' × List String))
    (k : FilePath') (v : List String) :
    lookupIdx (setIdx idx k v) k = some v := by
  induction idx with
  | nil => simp [setIdx, lookupIdx]
  | cons kv rest ih =>
    by_cases h : kv.1 = k
    · simp [setIdx, h, lookupIdx]
    · simp [setIdx, h, lookupIdx, ih]

lemma lookupIdx_setIdx_ne (idx : List (FilePath' × List String))
    (k k2 : FilePath') (v : List String) (h : k2 ≠ k) :
    lookupIdx (setIdx idx k v) k2 = lookupIdx idx k2 := by
  induction idx with
  | nil => simp [setIdx, lookupIdx, Ne.symm h]
  | cons kv rest ih =>
    by_cases hh : kv.1 = k
    · subst hh
      simp [setIdx, lookupIdx, Ne.symm h]
    · simp only [setIdx, if_neg hh, lookupIdx]
      by_cases hk2 : kv.1 = k2
      · simp [hk2]
      · simp [hk2, ih]

lemma mem_setIdx {idx : List (FilePath' × List String)}
    {kv : FilePath' × List String} {k : FilePath'} {v : List String}
    (h : kv ∈ setIdx idx k v) : kv.1 = k ∨ kv ∈ idx := by
  induction idx with
  | nil =>
    simp only [setIdx, List.mem_singleton] at h
    subst h
    exact Or.inl rfl
  | cons kv0 rest ih =>
    by_cases hh : kv0.1 = k
    · rw [setIdx, if_pos hh] at h
      rcases List.mem_cons.mp h with rfl | h
      · exact Or.inl rfl
      · exact Or.inr (List.mem_cons_of_mem _ h)
    · rw [setIdx, if_neg hh] at h
      rcases List.mem_cons.mp h with rfl | h
      · exact Or.inr (List.mem_cons_self _ _)
      · rcases ih h with h1 | h1
        · exact Or.inl h1
        · exact Or.inr (List.mem_cons_of_mem _ h1)

lemma lookupIdx_eq_none {idx : List (FilePath' × List String)} {k : FilePath'}
    (h : ∀ kv ∈ idx, kv.1 ≠ k) : lookupIdx idx k = none := by
  induction idx with
  | nil => rfl
  | cons kv rest ih =>
    rw [lookupIdx, if_neg (h kv (List.mem_cons_self _ _))]
    exact ih fun kv2 h2 => h kv2 (List.mem_cons_of_mem _ h2)

lemma foldlM_option_invariant {α β : Type} (f : β → α → Option β)
    (Q : β → Prop) :
    ∀ (l : List α) (b : β), Q b →
      (∀ x ∈ l, ∀ s, Q s → ∀ s2, f s x = some s2 → Q s2) →
      ∀ b2, l.foldlM f b = some b2 → Q b2 := by
  intro l
  induction l with
  | nil =>
    intro b hb _ b2 h
    exact (Option.some.inj h) ▸ hb
  | cons x xs ih =>
    intro b hb hf b2 h
    rw [List.foldlM_cons] at h
    cases hx : f b x with
    | none => rw [hx] at h; simp at h
    | some b1 =>
      rw [hx] at h
      exact ih b1 (hf x (List.mem_cons_self x xs) b hb b1 hx)
        (fun y hy => hf y (List.mem_cons_of_mem x hy)) b2 h

lemma mem_flatten_forall₂ {α β : Type} {R : α → List β → Prop} {fs : List α}
    {blocks : List (List β)} (h : List.Forall₂ R fs blocks) {c : β}
    (hc : c ∈ blocks.flatten) : ∃ f ∈ fs, ∃ bl, R f bl ∧ c ∈ bl := by
  induction h with
  | nil => simp at hc
  | cons hR hrest ih =>
    rw [List.flatten_cons] at hc
    rcases List.mem_append.mp hc with hc1 | hc1
    · exact ⟨_, List.mem_cons_self _ _, _, hR, hc1⟩
    · obtain ⟨f, hf, bl, hbl, hcbl⟩ := ih hc1
      exact ⟨f, List.mem_cons_of_mem _ hf, bl, hbl, hcbl⟩

lemma flatMap_congr {α β : Type} {l : List α} {f g : α → List β}
    (h : ∀ x ∈ l, f x = g x) : l.flatMap f = l.flatMap g := by
  induction l with
  | nil => rfl
  | cons x xs ih =>
    rw [List.flatMap_cons, List.flatMap_cons, h x (List.mem_cons_self _ _),
      ih fun y hy => h y (List.mem_cons_of_mem _ hy)]

/-- Reassembling per-file blocks: if the stored chunk list is a concatenation
of blocks, one per file, each block carrying its file's relative path, and
the relative paths are pairwise distinct, then filtering the whole list by
each file's relative path in file order recovers the whole list. -/
lemma blocks_filter_recover {α : Type} (key : α → FilePath') :
    ∀ {fs : List α} {blocks : List (List Chunk)},
      List.Forall₂ (fun f bl => ∀ c ∈ bl, c.file = key f) fs blocks →
      (fs.map key).Nodup →
      fs.flatMap (fun f => blocks.flatten.filter fun c =>
        decide (c.file = key f)) = blocks.flatten := by
  intro fs blocks h
  induction h with
  | nil => simp
  | @cons f bl fs2 blocks2 hbl hrest ih =>
    intro hnd
    rw [List.map_cons, List.nodup_cons] at hnd
    have hne : ∀ g ∈ fs2, key g ≠ key f := by
      intro g hg heq
      exact hnd.1 (heq ▸ List.mem_map_of_mem key hg)
    rw [List.flatMap_cons, List.flatten_cons, List.filter_append,
      List.filter_eq_self.mpr
        (fun c hc => by simp [hbl c hc]),
      List.filter_eq_nil_iff.mpr
        (fun c hc => by
          obtain ⟨g, hg, bl2, hbl2, hcbl⟩ := mem_flatten_forall₂ hrest hc
          simp [hbl2 c hcbl, hne g hg]),
      List.append_nil,
      flatMap_congr (fun g hg => by
        rw [List.filter_append,
          List.filter_eq_nil_iff.mpr
            (fun c hc => by simp [hbl c hc, Ne.symm (hne g hg)]),
          List.nil_append]),
      ih hnd.2]

/-! # Helper lemmas about the chunker -/

lemma windowStart_lt {k stop step : Nat} (hstep : 0 < step) (hstop : 0 < stop)
    (hk : k < (stop + step - 1) / step) : k * step < stop := by
  have h2 : (k + 1) * step ≤ ((stop + step - 1) / step) * step :=
    Nat.mul_le_mul_right step hk
  have h3 : ((stop + step - 1) / step) * step ≤ stop + step - 1 :=
    Nat.div_mul_le_self _ _
  have h4 : k * step + step ≤ stop + step - 1 := by
    calc k * step + step = (k + 1) * step := by ring
      _ ≤ _ := le_trans h2 h3
  set m := k * step
  omega

/-- Membership characterization for `chunkLines`: every emitted chunk comes
from a window start `k * step` with nonempty stripped text. -/
lemma mem_chunkLines {rel : FilePath'} {lines : List String}
    {chunkSize overlap : Nat} {c : Chunk}
    (hc : c ∈ chunkLines rel lines chunkSize overlap) :
    ∃ k, k < (max 1 (lines.length - overlap) + (chunkSize - overlap) - 1) /
        (chunkSize - overlap) ∧
      chunkText lines chunkSize (k * (chunkSize - overlap)) ≠ "" ∧
      c = { text := chunkText lines chunkSize (k * (chunkSize - overlap))
            file := rel
            start_line := k * (chunkSize - overlap) + 1
            end_line := k * (chunkSize - overlap) +
              (chunkWindow lines chunkSize (k * (chunkSize - overlap))).length } := by
  simp only [chunkLines, List.mem_filterMap] at hc
  obtain ⟨i, hi, hsome⟩ := hc
  simp only [windowStarts, List.mem_map, List.mem_range] at hi
  obtain ⟨k, hk, rfl⟩ := hi
  by_cases ht : chunkText lines chunkSize (k * (chunkSize - overlap)) = ""
  · rw [if_pos ht] at hsome
    exact absurd hsome (by simp)
  · rw [if_neg ht] at hsome
    exact ⟨k, hk, ht, (Option.some.inj hsome).symm⟩

lemma chunkLines_file {rel : FilePath'} {lines : List String}
    {chunkSize overlap : Nat} {c : Chunk}
    (hc : c ∈ chunkLines rel lines chunkSize overlap) : c.file = rel := by
  obtain ⟨k, -, -, rfl⟩ := mem_chunkLines hc
  rfl

lemma chunkWindow_nil (chunkSize i : Nat) : chunkWindow [] chunkSize i = [] := by
  simp [chunkWindow]

lemma chunkText_of_window_nil {lines : List String} {chunkSize i : Nat}
    (h : chunkWindow lines chunkSize i = []) :
    chunkText lines chunkSize i = "" := by
  rw [chunkText, h]
  rfl

/-- An empty file (no lines) yields no chunks: the single attempted window at
offset `0` strips to the empty text and is dropped. -/
lemma chunkLines_nil (rel : FilePath') (chunkSize overlap : Nat)
    (hO : overlap < chunkSize) :
    chunkLines rel [] chunkSize overlap = [] := by
  have hstep : 0 < chunkSize - overlap := by omega
  have hone : max 1 (List.length ([] : List String) - overlap) = 1 := by simp
  have hcount : (1 + (chunkSize - overlap) - 1) / (chunkSize - overlap) = 1 := by
    rw [Nat.add_sub_cancel_left, Nat.div_self hstep]
  have htext : ∀ i, chunkText [] chunkSize i = "" := fun i =>
    chunkText_of_window_nil (chunkWindow_nil _ _)
  rw [chunkLines, hone, windowStarts, hcount]
  simp [List.range_succ, htext]

/-- Post-conditions of a successful pass of the per-file loop of `index()`
invoked with `root = projectPath` (the default invocation): hash lookups for
keys outside the scan are untouched; every scanned file's hash is recorded;
every recorded entry comes from the scan or from the initial accumulator;
every scanned file lies under the project path; and the produced chunk list
is the initial one followed by one block per file in scan order, each block
tagged with its file's relative path. -/
lemma indexLoop_post (P : FilePath') (emb : String → Option (List ℚ))
    (force : Bool) (chunkSize overlap : Nat) (pruned : List Chunk) :
    ∀ (fs : List (FilePath' × List String)) (acc acc2 : LoopAcc),
      (fs.map (·.1)).Nodup →
      fs.foldlM (processFile P P emb force chunkSize overlap pruned) acc =
        some acc2 →
      (∀ k, k ∉ fs.map (·.1) →
          lookupIdx acc2.hashes k = lookupIdx acc.hashes k) ∧
        (∀ f ∈ fs, lookupIdx acc2.hashes f.1 = some f.2) ∧
        (∀ kv ∈ acc2.hashes, kv.1 ∈ fs.map (·.1) ∨ kv ∈ acc.hashes) ∧
        (∀ f ∈ fs, P <+: f.1) ∧
        ∃ blocks : List (List Chunk),
          List.Forall₂ (fun (f : FilePath' × List String) bl =>
            ∀ c ∈ bl, c.file = f.1.drop P.length) fs blocks ∧
          acc2.newChunks = acc.newChunks ++ blocks.flatten := by
  intro fs
  induction fs with
  | nil =>
    intro acc acc2 _ h
    obtain rfl := Option.some.inj h
    exact ⟨fun _ _ => rfl, by simp, fun kv hkv => Or.inr hkv, by simp,
      [], List.Forall₂.nil, by simp⟩
  | cons f fs ih =>
    intro acc acc2 hnd h
    rw [List.map_cons, List.nodup_cons] at hnd
    rw [List.foldlM_cons] at h
    cases hstep : processFile P P emb force chunkSize overlap pruned acc f with
    | none => rw [hstep] at h; simp at h
    | some acc1 =>
      rw [hstep] at h
      obtain ⟨hpres, hlook, hkeys, hpref, blocks, hblocks, hchunks⟩ :=
        ih acc1 acc2 hnd.2 h
      rw [processFile] at hstep
      by_cases h1 : force = false ∧ lookupIdx acc.hashes f.1 = some f.2
      · rw [if_pos h1] at hstep
        by_cases h2 : P <+: f.1
        · rw [if_pos h2] at hstep
          obtain rfl := Option.some.inj hstep
          refine ⟨?_, ?_, ?_, ?_,
            pruned.filter (fun c => decide (c.file = f.1.drop P.length))
              :: blocks, List.Forall₂.cons ?_ hblocks, ?_⟩
          · intro k hk
            rw [List.map_cons, List.mem_cons, not_or] at hk
            exact hpres k hk.2
          · intro g hg
            rcases List.mem_cons.mp hg with rfl | hg2
            · rw [hpres g.1 hnd.1]
              exact h1.2
            · exact hlook g hg2
          · intro kv hkv
            rcases hkeys kv hkv with h3 | h3
            · exact Or.inl (by rw [List.map_cons]; exact List.mem_cons_of_mem _ h3)
            · exact Or.inr h3
          · intro g hg
            rcases List.mem_cons.mp hg with rfl | hg2
            · exact h2
            · exact hpref g hg2
          · intro c hc
            exact of_decide_eq_true (List.mem_filter.mp hc).2
          · rw [hchunks, List.flatten_cons, ← List.append_assoc]
        · rw [if_neg h2] at hstep
          simp at hstep
      · rw [if_neg h1] at hstep
        cases hchunk : chunkFile P f.1 f.2 chunkSize overlap with
        | none => rw [hchunk] at hstep; simp at hstep
        | some cs =>
          rw [hchunk] at hstep
          obtain rfl := Option.some.inj hstep
          rw [chunkFile] at hchunk
          by_cases hpre2 : P <+: f.1
          · rw [if_pos hpre2] at hchunk
            obtain rfl := Option.some.inj hchunk
            refine ⟨?_, ?_, ?_, ?_,
              ((chunkLines (f.1.drop P.length) f.2 chunkSize overlap).filterMap
                fun c => (emb c.text).map fun e => { c with embedding := some e })
                :: blocks, List.Forall₂.cons ?_ hblocks, ?_⟩
            · intro k hk
              rw [List.map_cons, List.mem_cons, not_or] at hk
              rw [hpres k hk.2]
              exact lookupIdx_setIdx_ne _ _ _ _ hk.1
            · intro g hg
              rcases List.mem_cons.mp hg with rfl | hg2
              · rw [hpres g.1 hnd.1]
                exact lookupIdx_setIdx_self _ _ _
              · exact hlook g hg2
            · intro kv hkv
              rcases hkeys kv hkv with h3 | h3
              · exact Or.inl (by rw [List.map_cons]; exact List.mem_cons_of_mem _ h3)
              · rcases mem_setIdx h3 with h4 | h4
                · exact Or.inl (by rw [List.map_cons, h4]; exact List.mem_cons_self _ _)
                · exact Or.inr h4
            · intro g hg
              rcases List.mem_cons.mp hg with rfl | hg2
              · exact hpre2
              · exact hpref g hg2
            · intro c2 hc2
              obtain ⟨c, hc, heq⟩ := List.mem_filterMap.mp hc2
              obtain ⟨e, -, rfl⟩ := Option.map_eq_some'.mp heq
              show c.file = f.1.drop P.length
              exact chunkLines_file hc
            · rw [hchunks, List.flatten_cons, ← List.append_assoc]
          · rw [if_neg hpre2] at hchunk
            simp at hchunk

/-- When `force = false` and every scanned file's stored hash matches (and
lies under the root), the per-file loop takes the skip branch for every file:
no hash is rewritten, every file counts as skipped, and the new chunk list is
the concatenation, in scan order, of each file's retained chunks. -/
lemma indexLoop_all_skip (P : FilePath') (emb : String → Option (List ℚ))
    (chunkSize overlap : Nat) (pruned : List Chunk) :
    ∀ (fs : List (FilePath' × List String)) (acc : LoopAcc),
      (∀ f ∈ fs, lookupIdx acc.hashes f.1 = some f.2 ∧ P <+: f.1) →
      fs.foldlM (processFile P P emb false chunkSize overlap pruned) acc =
        some { hashes := acc.hashes
               newChunks := acc.newChunks ++ fs.flatMap (fun f =>
                 pruned.filter fun c => decide (c.file = f.1.drop P.length))
               indexed := acc.indexed
               skipped := acc.skipped + fs.length } := by
  intro fs
  induction fs with
  | nil =>
    intro acc _
    simp [List.foldlM_nil]
  | cons f fs ih =>
    intro acc h
    have h1 := h f (List.mem_cons_self f fs)
    rw [List.foldlM_cons, processFile, if_pos ⟨rfl, h1.1⟩, if_pos h1.2]
    have h2 := ih
      { acc with
        skipped := acc.skipped + 1
        newChunks := acc.newChunks ++
          pruned.filter fun c => decide (c.file = f.1.drop P.length) }
      (fun g hg => h g (List.mem_cons_of_mem f hg))
    show fs.foldlM (processFile P P emb false chunkSize overlap pruned) _ = _
    rw [h2]
    simp only [Option.some.injEq, LoopAcc.mk.injEq, List.flatMap_cons,
      List.append_assoc, List.length_cons, true_and]
    omega

/-! # Claim theorems -/

/-- Claim C9: when the root path does not exist, `index()` returns the
"Path does not exist" error message and changes nothing: the in-memory state
is returned untouched (no pruning, no re-embedding) and neither `index.json`
nor `chunks.json` (nor `summary.json`) is written. -/
theorem index_missing_root (projectPath root : FilePath')
    (files : List (FilePath' × List String)) (emb : String → Option (List ℚ))
    (gen : Except String String) (force : Bool) (chunkSize overlap : Nat)
    (st : PipelineState) :
    runIndex projectPath root false files emb gen force chunkSize overlap st =
      some { result := .pathMissing root, state := st
             wroteStores := false, summaryWritten := none } := rfl

/-- Claim C6: on an empty chunk collection both `search()` and `ask()` return
the designated "No index found. Run index_project first." message
(`.noIndex`), for every possible outcome of the embedding and generation
services — in particular they never raise and never contact either remote
service (the result does not depend on `embQ` or `gen`). -/
theorem search_ask_empty_return_no_index (embQ : Except String (List ℚ))
    (gen : Except String String) (n : Nat) :
    search [] embQ n = .noIndex ∧ ask [] embQ gen = .noIndex := ⟨rfl, rfl⟩

/-- Claim C5, counterexample: on a non-empty index, a failing query-embedding
call makes `search`/`ask` raise (`.raised` models the uncaught exception
escaping the method — neither `search`, `ask`, nor the CLI/MCP front-ends
wrap the call in `try`), rather than terminate with an error string result as
the claim states. -/
theorem search_embed_failure_counterexample :
    search [demoChunk] (.error "connection refused") 5 =
        .raised "connection refused" ∧
      ask [demoChunk] (.error "connection refused") (.ok "an answer") =
        .raised "connection refused" := by
  constructor <;> rfl

/-- Claim C5, amended: whenever the stored chunk collection is non-empty and
the single query-embedding call fails, that `search`/`ask` call terminates by
raising the embedding exception, which propagates uncaught to the front-end
(the MCP server's read loop logs it and stops; the CLI crashes); it is not
converted into an error string result. -/
theorem search_ask_embed_failure_raises (chunks : List Chunk) (e : String)
    (n : Nat) (gen : Except String String) (h : chunks.isEmpty = false) :
    search chunks (.error e) n = .raised e ∧
      ask chunks (.error e) gen = .raised e := by
  constructor <;> simp [search, ask, h]

/-- Witness for the amended C5 theorem at a concrete non-empty index. -/
theorem search_ask_embed_failure_raises_witness :
    search [demoChunk] (.error "timeout") 3 = .raised "timeout" ∧
      ask [demoChunk] (.error "timeout") (.error "unreachable") =
        .raised "timeout" :=
  search_ask_embed_failure_raises [demoChunk] "timeout" 3 (.error "unreachable")
    rfl

/-- Claim C8: a run of `index()` whose summary generation fails still
completes and persists the indexing results, and writes the
`"Could not generate summary: …"` placeholder to the summary file instead of
leaving it absent.  The run's return value, resulting state and store writes
are identical to those of the same run with any other summary-generation
outcome. -/
theorem index_summary_failure_resilient (projectPath root : FilePath')
    (files : List (FilePath' × List String)) (emb : String → Option (List ℚ))
    (gen : Except String String) (e : String) (force : Bool)
    (chunkSize overlap : Nat) (st : PipelineState) (r : IndexRun)
    (hrun : runIndex projectPath root true files emb (.error e) force
      chunkSize overlap st = some r)
    (i s t : Nat) (hres : r.result = .done i s t) (hi : 0 < i) :
    r.wroteStores = true ∧
      r.summaryWritten = some ("Could not generate summary: " ++ e) ∧
      (runIndex projectPath root true files emb gen force chunkSize overlap
          st).map (fun q => (q.result, q.state, q.wroteStores)) =
        some (r.result, r.state, r.wroteStores) := by
  simp only [runIndex, if_pos] at hrun ⊢
  obtain ⟨acc, hacc, hr⟩ := Option.map_eq_some'.mp hrun
  subst hr
  rw [hacc]
  have hidx : 0 < acc.indexed := by
    simp only [IndexOutcome.done.injEq] at hres
    omega
  simp [hidx, Option.map_some']

/-- The `IndexRun` of the first demo indexing run (used to instantiate the
C2 theorem). -/
def runC2 : IndexRun :=
  { result := .done 1 0 1
    state := { hashes := [(["p", "a.py"], ["x"])]
               chunks := [⟨"x", ["a.py"], 1, 1, some [1]⟩] }
    wroteStores := true
    summaryWritten := some "s" }

/-- Claim C2: re-running `index()` with the default root, `force = false` and
no file content changed reproduces the previous state exactly — the stored
hash mapping and chunk collection are returned unchanged (every unchanged
file's chunks are retained), every file is reported skipped and zero files
changed — and, since nothing was re-indexed, the summary is not regenerated. -/
theorem index_unchanged_idempotent (P : FilePath')
    (files : List (FilePath' × List String))
    (emb emb2 : String → Option (List ℚ)) (gen gen2 : Except String String)
    (force : Bool) (chunkSize overlap : Nat) (st0 : PipelineState)
    (r1 : IndexRun) (hnd : (files.map (·.1)).Nodup)
    (h1 : runIndex P P true files emb gen force chunkSize overlap st0 =
      some r1) :
    runIndex P P true files emb2 gen2 false chunkSize overlap r1.state =
      some { result := .done 0 files.length r1.state.chunks.length
             state := r1.state
             wroteStores := true
             summaryWritten := none } := by
  simp only [runIndex, if_true] at h1 ⊢
  obtain ⟨acc, hacc, hr1⟩ := Option.map_eq_some'.mp h1
  obtain ⟨hpres, hlook, hkeys, hpref, blocks, hblocks, hchunks⟩ :=
    indexLoop_post P emb force chunkSize overlap _ files _ acc hnd hacc
  subst hr1
  dsimp only
  have hchunks2 : acc.newChunks = blocks.flatten := by simpa using hchunks
  have hfilterH :
      acc.hashes.filter (fun kv => decide (kv.1 ∈ files.map (·.1))) =
        acc.hashes :=
    List.filter_eq_self.mpr fun kv hkv => decide_eq_true (by
      rcases hkeys kv hkv with h | h
      · exact h
      · exact of_decide_eq_true (List.mem_filter.mp h).2)
  have hfilterC :
      acc.newChunks.filter (fun c => decide (P ++ c.file ∈ files.map (·.1))) =
        acc.newChunks :=
    List.filter_eq_self.mpr fun c hc => decide_eq_true (by
      obtain ⟨g, hg, bl, hblp, hcbl⟩ :=
        mem_flatten_forall₂ hblocks (hchunks2 ▸ hc)
      rw [hblp c hcbl, List.prefix_iff_eq_append.mp (hpref g hg)]
      exact List.mem_map_of_mem _ hg)
  have hkeynd : (files.map fun f => f.1.drop P.length).Nodup := by
    have hmm : (files.map fun f => f.1.drop P.length) =
        (files.map (·.1)).map (List.drop P.length) := by
      rw [List.map_map]
      rfl
    rw [hmm]
    refine hnd.map_on ?_
    intro x hx y hy hxy
    obtain ⟨g, hg, rfl⟩ := List.mem_map.mp hx
    obtain ⟨g2, hg2, rfl⟩ := List.mem_map.mp hy
    rw [← List.prefix_iff_eq_append.mp (hpref g hg), hxy]
    exact List.prefix_iff_eq_append.mp (hpref g2 hg2)
  have hrecover : files.flatMap (fun f =>
      acc.newChunks.filter fun c => decide (c.file = f.1.drop P.length)) =
        acc.newChunks := by
    rw [hchunks2]
    exact blocks_filter_recover
      (fun f : FilePath' × List String => f.1.drop P.length) hblocks hkeynd
  rw [hfilterH, hfilterC,
    indexLoop_all_skip P emb2 chunkSize overlap acc.newChunks files
      ⟨acc.hashes, [], 0, 0⟩ (fun f hf => ⟨hlook f hf, hpref f hf⟩)]
  simp [hrecover]

/-- Witness for the C2 theorem: re-running `index()` on the unchanged
one-file demo project reports `0` new, `1` skipped, and returns the state of
the first run unchanged, without regenerating the summary. -/
theorem index_unchanged_idempotent_witness :
    runIndex ["p"] ["p"] true demoFiles embOne (.ok "s") false 10 2
        runC2.state =
      some { result := .done 0 1 1
             state := runC2.state
             wroteStores := true
             summaryWritten := none } :=
  index_unchanged_idempotent ["p"] demoFiles embOne embOne (.ok "s") (.ok "s")
    false 10 2 ⟨[], []⟩ runC2 (by decide) (by decide)

/-- Claim C3: any successful `index()` run with the default root removes a
previously indexed but now absent file completely: its path→hash entry is
gone and no stored chunk belongs to its relative path. -/
theorem index_prunes_deleted (P : FilePath')
    (files : List (FilePath' × List String)) (emb : String → Option (List ℚ))
    (gen : Except String String) (force : Bool) (chunkSize overlap : Nat)
    (st : PipelineState) (gone : FilePath') (r : IndexRun)
    (hgone : gone ∉ files.map (·.1)) (hpre : P <+: gone)
    (hrun : runIndex P P true files emb gen force chunkSize overlap st =
      some r) :
    lookupIdx r.state.hashes gone = none ∧
      ∀ c ∈ r.state.chunks, c.file ≠ gone.drop P.length := by
  simp only [runIndex, if_true] at hrun
  obtain ⟨acc, hacc, hr⟩ := Option.map_eq_some'.mp hrun
  subst hr
  dsimp only
  have hstepinv : ∀ x ∈ files, ∀ a : LoopAcc,
      ((∀ kv ∈ a.hashes, kv.1 ∈ files.map (·.1)) ∧
        ∀ c ∈ a.newChunks, ∃ g ∈ files, P <+: g.1 ∧
          c.file = g.1.drop P.length) →
      ∀ a2 : LoopAcc,
        processFile P P emb force chunkSize overlap
          (st.chunks.filter fun c => decide (P ++ c.file ∈ files.map (·.1)))
          a x = some a2 →
        (∀ kv ∈ a2.hashes, kv.1 ∈ files.map (·.1)) ∧
          ∀ c ∈ a2.newChunks, ∃ g ∈ files, P <+: g.1 ∧
            c.file = g.1.drop P.length := by
    intro x hx a ha a2 hstep
    rw [processFile] at hstep
    by_cases h1 : force = false ∧ lookupIdx a.hashes x.1 = some x.2
    · rw [if_pos h1] at hstep
      by_cases h2 : P <+: x.1
      · rw [if_pos h2] at hstep
        obtain rfl := Option.some.inj hstep
        refine ⟨ha.1, ?_⟩
        intro c hc
        rcases List.mem_append.mp hc with hc1 | hc1
        · exact ha.2 c hc1
        · exact ⟨x, hx, h2, of_decide_eq_true (List.mem_filter.mp hc1).2⟩
      · rw [if_neg h2] at hstep
        simp at hstep
    · rw [if_neg h1] at hstep
      cases hchunk : chunkFile P x.1 x.2 chunkSize overlap with
      | none => rw [hchunk] at hstep; simp at hstep
      | some cs =>
        rw [hchunk] at hstep
        obtain rfl := Option.some.inj hstep
        rw [chunkFile] at hchunk
        by_cases hpre2 : P <+: x.1
        · rw [if_pos hpre2] at hchunk
          obtain rfl := Option.some.inj hchunk
          constructor
          · intro kv hkv
            rcases mem_setIdx hkv with h3 | h3
            · rw [h3]
              exact List.mem_map_of_mem _ hx
            · exact ha.1 kv h3
          · intro c hc
            rcases List.mem_append.mp hc with hc1 | hc1
            · exact ha.2 c hc1
            · obtain ⟨c0, hc0, heq⟩ := List.mem_filterMap.mp hc1
              obtain ⟨e, -, rfl⟩ := Option.map_eq_some'.mp heq
              exact ⟨x, hx, hpre2, by
                show c0.file = _
                exact chunkLines_file hc0⟩
        · rw [if_neg hpre2] at hchunk
          simp at hchunk
  have hQ := foldlM_option_invariant
    (processFile P P emb force chunkSize overlap
      (st.chunks.filter fun c => decide (P ++ c.file ∈ files.map (·.1))))
    (fun a => (∀ kv ∈ a.hashes, kv.1 ∈ files.map (·.1)) ∧
      ∀ c ∈ a.newChunks, ∃ g ∈ files, P <+: g.1 ∧ c.file = g.1.drop P.length)
    files
    ⟨st.hashes.filter fun kv => decide (kv.1 ∈ files.map (·.1)), [], 0, 0⟩
    ⟨fun kv hkv => of_decide_eq_true (List.mem_filter.mp hkv).2, by simp⟩
    hstepinv acc hacc
  constructor
  · exact lookupIdx_eq_none fun kv hkv heq => hgone (heq ▸ hQ.1 kv hkv)
  · intro c hc heq
    obtain ⟨g, hg, hgpre, hfile⟩ := hQ.2 c hc
    have hsame : g.1 = gone := by
      rw [← List.prefix_iff_eq_append.mp hgpre, ← hfile, heq]
      exact List.prefix_iff_eq_append.mp hpre
    exact hgone (hsame ▸ List.mem_map_of_mem _ hg)

/-- The state before the C3 witness run: a deleted file `p/gone.py` and a
surviving unchanged file `p/keep.py` are both still recorded. -/
def staleState : PipelineState :=
  { hashes := [(["p", "gone.py"], ["y"]), (["p", "keep.py"], ["z"])]
    chunks := [⟨"y", ["gone.py"], 1, 1, some [1]⟩,
               ⟨"z", ["keep.py"], 1, 1, some [2]⟩] }

/-- The `IndexRun` of the C3 witness: re-indexing after `p/gone.py` was
deleted prunes its hash entry and chunk and keeps `p/keep.py`. -/
def prunedRun : IndexRun :=
  { result := .done 0 1 1
    state := { hashes := [(["p", "keep.py"], ["z"])]
               chunks := [⟨"z", ["keep.py"], 1, 1, some [2]⟩] }
    wroteStores := true
    summaryWritten := none }

/-- Witness for the C3 theorem at the concrete stale state. -/
theorem index_prunes_deleted_witness :
    lookupIdx prunedRun.state.hashes ["p", "gone.py"] = none :=
  (index_prunes_deleted ["p"] [(["p", "keep.py"], ["z"])] embOne (.ok "s")
    false 10 2 staleState ["p", "gone.py"] prunedRun (by decide) (by decide)
    (by decide)).1

/-- Claim C4: for equal-length real vectors, `_cosine_similarity` returns
`dot(a,b) / (‖a‖ * ‖b‖)`; it returns exactly `0` (no NaN, no error) when
either norm is zero, `1` on identical non-zero vectors, and `-1` on opposite
vectors. -/
theorem cosine_similarity_values (a b : List ℝ) (_hlen : a.length = b.length) :
    (normOf a = 0 ∨ normOf b = 0 → cosineSimilarity a b = 0) ∧
      (normOf a ≠ 0 → normOf b ≠ 0 →
        cosineSimilarity a b = dotL a b / (normOf a * normOf b)) ∧
      (normOf a ≠ 0 → cosineSimilarity a a = 1) ∧
      (normOf a ≠ 0 → cosineSimilarity a (a.map fun x => -x) = -1) := by
  refine ⟨fun h => ?_, fun h1 h2 => ?_, fun h => ?_, fun h => ?_⟩
  · rw [cosineSimilarity, if_pos h]
  · rw [cosineSimilarity, if_neg (by tauto)]
  · rw [cosineSimilarity, if_neg (by tauto), dotL_self, normOf_mul_self,
      div_self ((normOf_eq_zero_iff a).not.mp h)]
  · have hnorm : normOf (a.map fun x => -x) = normOf a := by
      rw [normOf, normOf, sumSq_map_neg]
    rw [cosineSimilarity, if_neg (by rw [hnorm]; tauto), dotL_neg_right, hnorm,
      normOf_mul_self, neg_div, div_self ((normOf_eq_zero_iff a).not.mp h)]

/-- Witness for the C4 theorem: the opposite of `[3, 4]` scores `-1`. -/
theorem cosine_similarity_values_witness :
    cosineSimilarity [(3 : ℝ), 4] ([(3 : ℝ), 4].map fun x => -x) = -1 :=
  (cosine_similarity_values [(3 : ℝ), 4] [(3 : ℝ), 4] rfl).2.2.2
    (by simp only [Ne, normOf_eq_zero_iff]; norm_num [sumSq])

/-- Claim C10: `_cosine_similarity` is total on vectors of unequal length —
`zip` truncates the dot product to the common prefix while each norm runs
over its whole vector — and its value always lies in `[-1, 1]`. -/
theorem cosine_similarity_total_bounded (a b : List ℝ) :
    dotL a b = dotL (a.take b.length) (b.take a.length) ∧
      -1 ≤ cosineSimilarity a b ∧ cosineSimilarity a b ≤ 1 := by
  refine ⟨by rw [dotL, dotL, zip_eq_zip_take], ?_⟩
  rw [cosineSimilarity]
  split
  · norm_num
  · rename_i h
    push_neg at h
    have hna : 0 < normOf a := (normOf_nonneg a).lt_of_ne (Ne.symm h.1)
    have hnb : 0 < normOf b := (normOf_nonneg b).lt_of_ne (Ne.symm h.2)
    have hpos : 0 < normOf a * normOf b := mul_pos hna hnb
    have hq : dotL a b ^ 2 ≤ (normOf a * normOf b) ^ 2 := by
      calc dotL a b ^ 2 ≤ sumSq a * sumSq b := dotL_sq_le a b
        _ = (normOf a * normOf b) ^ 2 := by
            rw [← normOf_mul_self a, ← normOf_mul_self b]; ring
    constructor
    · rw [le_div_iff₀ hpos]
      nlinarith [sq_nonneg (dotL a b + normOf a * normOf b)]
    · rw [div_le_one hpos]
      nlinarith [sq_nonneg (dotL a b - normOf a * normOf b)]

/-- Witness for the C8 theorem: indexing the one-file demo project from the
empty state while summary generation raises `"boom"`. -/
theorem index_summary_failure_resilient_witness :
    runC8.wroteStores = true ∧
      runC8.summaryWritten = some ("Could not generate summary: " ++ "boom") ∧
      (runIndex ["p"] ["p"] true demoFiles embOne (.ok "all good") false 10 2
          ⟨[], []⟩).map (fun q => (q.result, q.state, q.wroteStores)) =
        some (runC8.result, runC8.state, runC8.wroteStores) :=
  index_summary_failure_resilient ["p"] ["p"] demoFiles embOne (.ok "all good")
    "boom" false 10 2 ⟨[], []⟩ runC8 (by decide) 1 0 1 rfl (by decide)

/-- Claim C1: for `overlap < chunk_size`, every chunk the chunker emits starts
at a line offset `k * step` (`step = chunk_size - overlap`) that is below
`max(1, total_lines - overlap)` and spans at most `chunk_size` lines; and the
25-line demo file with `chunk_size = 10, overlap = 2` yields exactly the three
chunks covering 1-based inclusive line ranges `[1,10]`, `[9,18]`, `[17,25]`. -/
theorem chunker_window_layout (lines : List String) (rel : FilePath')
    (chunkSize overlap : Nat) (hO : overlap < chunkSize) :
    (∀ c ∈ chunkLines rel lines chunkSize overlap,
        ∃ k, c.start_line = k * (chunkSize - overlap) + 1 ∧
          k * (chunkSize - overlap) < max 1 (lines.length - overlap) ∧
          c.end_line + 1 - c.start_line ≤ chunkSize) ∧
      (chunkLines ["demo.py"] (List.replicate 25 "x") 10 2).map
          (fun c => (c.start_line, c.end_line)) =
        [(1, 10), (9, 18), (17, 25)] := by
  constructor
  · intro c hc
    obtain ⟨k, hk, -, rfl⟩ := mem_chunkLines hc
    refine ⟨k, rfl, ?_, ?_⟩
    · exact windowStart_lt (by omega) (by omega) hk
    · simp only [chunkWindow, List.length_take, List.length_drop]
      omega
  · decide

/-- Witness for the C1 theorem at the 25-line demo file. -/
theorem chunker_window_layout_witness :
    (chunkLines ["demo.py"] (List.replicate 25 "x") 10 2).map
        (fun c => (c.start_line, c.end_line)) = [(1, 10), (9, 18), (17, 25)] :=
  (chunker_window_layout (List.replicate 25 "x") ["demo.py"] 10 2
    (by decide)).2

/-- The chunk produced when `_chunk_file` relativizes against the configured
project path `["r"]` while indexing runs with root `["r", "sub"]`. -/
def subChunk : Chunk :=
  { text := "x", file := ["sub", "a.py"], start_line := 1, end_line := 1 }

/-- Claim C7, counterexample: with configured project path `r/` and `index()`
invoked on root `r/sub/`, chunking `r/sub/a.py` emits a chunk whose `file`
attribute is `sub/a.py` — relative to the *configured* project path, not to
the project root of that index run (`a.py`).  So a chunk's `file` is not the
path relative to the index-time project root when the two roots differ. -/
theorem chunk_file_root_relative_counterexample :
    chunkFile ["r"] ["r", "sub", "a.py"] ["x"] 10 2 = some [subChunk] ∧
      subChunk.file ≠
        List.drop (List.length (["r", "sub"] : FilePath'))
          (["r", "sub", "a.py"] : FilePath') := by
  constructor <;> decide

/-- Claim C7, amended: every chunk emitted by `_chunk_file` has
`start_line ≤ end_line` (1-based, inclusive), text that is non-empty and
equal to the stripped window join, and `file` equal to the path relative to
the *configured* project path (a relative path by construction — never
absolute); an empty file yields an empty chunk sequence.  When `index()` is
invoked with a root other than the configured project path, `file` remains
relative to the configured project path (and `_chunk_file` raises for files
outside it), not relative to the supplied root. -/
theorem chunk_invariants (projectPath path : FilePath') (lines : List String)
    (chunkSize overlap : Nat) (hO : overlap < chunkSize) (cs : List Chunk)
    (hcs : chunkFile projectPath path lines chunkSize overlap = some cs)
    (c : Chunk) (hc : c ∈ cs) :
    c.start_line ≤ c.end_line ∧
      c.text ≠ "" ∧
      c.text = chunkText lines chunkSize (c.start_line - 1) ∧
      c.file = path.drop projectPath.length ∧
      chunkLines (path.drop projectPath.length) [] chunkSize overlap = [] := by
  rw [chunkFile] at hcs
  by_cases hpre : projectPath <+: path
  · rw [if_pos hpre] at hcs
    obtain rfl := Option.some.inj hcs
    obtain ⟨k, -, ht, rfl⟩ := mem_chunkLines hc
    have hwin : chunkWindow lines chunkSize (k * (chunkSize - overlap)) ≠ [] :=
      fun h => ht (chunkText_of_window_nil h)
    have hlen :
        1 ≤ (chunkWindow lines chunkSize (k * (chunkSize - overlap))).length :=
      Nat.one_le_iff_ne_zero.mpr (fun h => hwin (List.length_eq_zero.mp h))
    refine ⟨by simpa using hlen, ht, by simp, rfl,
      chunkLines_nil _ _ _ hO⟩
  · rw [if_neg hpre] at hcs
    exact absurd hcs (by simp)

/-- Witness for the amended C7 theorem at the chunk of `r/sub/a.py`. -/
theorem chunk_invariants_witness :
    subChunk.start_line ≤ subChunk.end_line ∧
      subChunk.text ≠ "" ∧
      subChunk.text = chunkText ["x"] 10 (subChunk.start_line - 1) ∧
      subChunk.file = ["sub", "a.py"] ∧
      chunkLines ["sub", "a.py"] [] 10 2 = [] :=
  chunk_invariants ["r"] ["r", "sub", "a.py"] ["x"] 10 2 (by decide)
    [subChunk] (by decide) subChunk (by decide)
